import Mathlib

/-!
Shallow embedding of the VarveDB storage engine (repository `varvedb`).

The embedding follows the source files cited by the specification:
`src/engine.rs` (Writer::append, Reader::get), `src/crypto.rs` (KeyManager,
encrypt, decrypt), `src/storage/mod.rs` (Storage, StreamKey, StorageConfig),
`src/constants.rs`, `src/error.rs`, `src/processor.rs` (Processor::run,
process_backlog) and `src/varve.rs` (StreamVersion).

Modelling conventions:
* Byte strings are `List Nat`; honest byte strings have entries `< 256` and the
  fixed-width integer encodings (`u64`, `u128`, `u32` big-endian keys) are the
  `beBytes` function below.
* The LMDB ordered-map backend is external to the repository (the spec's §1
  scopes it out); each named database is an association list, `put` replaces
  an existing key or inserts at the end, `last` is the greatest key, and a
  transaction that errors before `commit` leaves the committed state unchanged
  (LMDB aborts the write transaction on drop).
* The AES-256-GCM AEAD primitive is likewise external (spec §1); it is
  embedded as an ideal authenticated cipher: the ciphertext body equals the
  plaintext (AES-GCM is length-preserving) followed by a 16-entry tag that is
  determined by key, nonce, plaintext and AAD and is injective in the key for
  32-byte keys, matching the authentication contract the code relies on.
* Randomness (fresh nonces, fresh stream keys) is passed in explicitly as
  oracle inputs; the source draws them from `OsRng` into `[u8; 12]` and
  `[u8; 32]` buffers, which is reflected by length hypotheses.
* `rkyv` serialization of the user event is external; an event is represented
  by its serialized byte image and the `check_archived_root::<E>` structural
  validation by a caller-supplied predicate on those bytes.
-/

set_option maxRecDepth 100000

namespace VarveDB

/-- Little-endian byte decomposition of `n` into `w` bytes. -/
def leBytes : Nat → Nat → List Nat
  | 0, _ => []
  | w + 1, n => n % 256 :: leBytes w (n / 256)

/-- Big-endian `w`-byte encoding of `n`, as in `u64::to_be_bytes`,
`u128::to_be_bytes` and `u32::to_be_bytes`. -/
def beBytes (w n : Nat) : List Nat :=
  (leBytes w n).reverse

/-- Big-endian reconstruction of a natural number from bytes, as in
`u128::from_be_bytes`. -/
def natFromBe (l : List Nat) : Nat :=
  l.foldl (fun a b => a * 256 + b) 0

/-- Lookup in an association list, modelling `Database::get`. -/
def assocGet {α β : Type} [DecidableEq α] : List (α × β) → α → Option β
  | [], _ => none
  | (k, v) :: rest, key => if k = key then some v else assocGet rest key

/-- Insert-or-replace in an association list, modelling `Database::put`. -/
def assocPut {α β : Type} [DecidableEq α] : List (α × β) → α → β → List (α × β)
  | [], key, val => [(key, val)]
  | (k, v) :: rest, key, val =>
    if k = key then (k, val) :: rest else (k, v) :: assocPut rest key val

/-- Removal from an association list, modelling `Database::delete` (the
backend is a map, so the key occurs at most once; removal drops every
occurrence of the key). -/
def assocDelete {α β : Type} [DecidableEq α] : List (α × β) → α → List (α × β)
  | [], _ => []
  | (k, v) :: rest, key =>
    if k = key then assocDelete rest key else (k, v) :: assocDelete rest key

/-- Greatest key of the events log, or `0` when empty: models
`events_log.last(&txn)?.map(|(k, _)| k).unwrap_or(0)` over the ordered map. -/
def lastSeq {β : Type} (l : List (Nat × β)) : Nat :=
  l.foldl (fun a p => max a p.1) 0

/-- The error taxonomy of `src/error.rs` (`enum Error`). String payloads stand
for the formatted messages of the source. -/
inductive Error where
  | io (msg : String)
  | heed (msg : String)
  | eventSerialization (msg : String)
  | eventValidation (msg : String)
  | invalidEncryptedEventLength (actual minimum : Nat)
  | invalidKeyLength (actual expected : Nat)
  | invalidCiphertextLength (actual minimum : Nat)
  | encryptionError (msg : String)
  | decryptionError (msg : String)
  | invalidConfig (msg : String)
  | streamNotFound (streamId : Nat)
  | versionMismatch (streamId expected actual : Nat)
  | keyNotFound (streamId : Nat)
  | concurrencyConflict (streamId version : Nat)
deriving DecidableEq, Repr

/-- The payload envelope of `src/model.rs` (`enum StoragePayload`): inline
bytes, or a 32-byte content hash referencing the blob store. -/
inductive StoragePayload where
  | inline (bytes : List Nat)
  | blobRef (hash : List Nat)
deriving DecidableEq, Repr

/-- The rkyv archival encoding of the envelope, modelled as an injective tagged
encoding (the concrete rkyv byte format is external to the repository). -/
def encodePayload : StoragePayload → List Nat
  | .inline b => 0 :: b
  | .blobRef h => 1 :: h

/-- Structural validation plus decoding of the envelope, modelling
`rkyv::check_archived_root::<Payload>`: a `blobRef` must carry exactly a
32-byte hash (`[u8; 32]`), anything else is rejected. -/
def decodePayload : List Nat → Option StoragePayload
  | [] => none
  | t :: rest =>
    if t = 0 then some (.inline rest)
    else if t = 1 then
      if rest.length = 32 then some (.blobRef rest) else none
    else none

/-- Ideal model of the SHA-256 content hash used by the blob sidecar
(`Sha256::digest` in `Writer::append`): always 32 bytes. -/
def sha256 (b : List Nat) : List Nat :=
  beBytes 32 (b.foldl (fun a x => a * 257 + x % 256 + 1) 1)

/-- Mixing of nonce, plaintext and AAD into the ideal tag. -/
def tagDigest (nonce pt aad : List Nat) : Nat :=
  (nonce ++ pt ++ aad).foldl (fun a b => a * 257 + b % 256 + 1) 1

/-- Cell `i` of the ideal tag packs two key bytes; for honest 32-byte keys the
16 cells together determine the key. -/
def keyCell (key : List Nat) (i : Nat) : Nat :=
  key.getD (2 * i) 0 % 256 + 256 * (key.getD (2 * i + 1) 0 % 256)

/-- The 16-entry authentication tag of the ideal AEAD: determined by key,
nonce, plaintext and AAD, and injective in the key for 32-byte keys. -/
def aeadTag (key nonce pt aad : List Nat) : List Nat :=
  (List.range 16).map fun i => keyCell key i + 65536 * tagDigest nonce pt aad

/-- Ideal AEAD encryption (`Aes256Gcm::encrypt`): ciphertext body equals the
plaintext (length preservation of GCM counter mode) followed by the tag. -/
def aeadEncrypt (key nonce pt aad : List Nat) : List Nat :=
  pt ++ aeadTag key nonce pt aad

/-- Ideal AEAD decryption (`Aes256Gcm::decrypt`): succeeds exactly when the
trailing 16 entries are the tag of the leading body under the given key,
nonce and AAD. -/
def aeadDecrypt (key nonce ct aad : List Nat) : Option (List Nat) :=
  if 16 ≤ ct.length ∧ ct.drop (ct.length - 16) = aeadTag key nonce (ct.take (ct.length - 16)) aad
  then some (ct.take (ct.length - 16)) else none

/-- `crypto::encrypt` of `src/crypto.rs`: draw a fresh 12-byte nonce (here an
oracle argument), AEAD-encrypt, and prepend the raw nonce to the result. -/
def cryptoEncrypt (key nonce plaintext aad : List Nat) : List Nat :=
  nonce ++ aeadEncrypt key nonce plaintext aad

/-- `crypto::decrypt` of `src/crypto.rs`: reject inputs shorter than the
12-byte nonce, split off the nonce, AEAD-decrypt the remainder. -/
def cryptoDecrypt (key ctWithNonce aad : List Nat) : Except Error (List Nat) :=
  if ctWithNonce.length < 12 then
    .error (.invalidCiphertextLength ctWithNonce.length 12)
  else
    match aeadDecrypt key (ctWithNonce.take 12) (ctWithNonce.drop 12) aad with
    | some pt => .ok pt
    | none => .error (.decryptionError "Decryption failed")

/-- Decidable equality of fallible results, for evaluating the model on
concrete inputs. -/
instance {ε α : Type} [DecidableEq ε] [DecidableEq α] : DecidableEq (Except ε α) := fun x y =>
  match x, y with
  | .ok a, .ok b =>
    if h : a = b then isTrue (by rw [h]) else isFalse (by intro hh; cases hh; exact h rfl)
  | .error a, .error b =>
    if h : a = b then isTrue (by rw [h]) else isFalse (by intro hh; cases hh; exact h rfl)
  | .ok _, .error _ => isFalse (by intro hh; cases hh)
  | .error _, .ok _ => isFalse (by intro hh; cases hh)

/-- The five logical namespaces held by `Storage` as used by `Writer::append`,
`Reader::get` and the repository tests (`storage.events_log`,
`storage.stream_index`, `storage.consumer_cursors`, `storage.keystore`,
`storage.blobs`). -/
structure Store where
  eventsLog : List (Nat × List Nat)
  streamIndex : List (List Nat × Nat)
  consumerCursors : List (Nat × Nat)
  keystore : List (Nat × List Nat)
  blobs : List (List Nat × List Nat)
deriving DecidableEq, Repr

/-- A freshly opened, empty store. -/
def emptyStore : Store :=
  { eventsLog := [], streamIndex := [], consumerCursors := [], keystore := [], blobs := [] }

/-- `StreamKey::to_be_bytes` of `src/storage/mod.rs`: the 20-byte stream-index
key, `stream_id` (16 bytes BE) followed by `version` (4 bytes BE). -/
def streamKeyBytes (streamId version : Nat) : List Nat :=
  beBytes 16 streamId ++ beBytes 4 version

/-- `KeyManager::get_master_key` of `src/crypto.rs`: the configured master key,
or `Error::KeyNotFound(0)` when none is configured (the source comment reads
`0 for master key`; `error.rs` has no separate master-key error variant). -/
def getMasterKey (mk : Option (List Nat)) : Except Error (List Nat) :=
  match mk with
  | some k => .ok k
  | none => .error (.keyNotFound 0)

/-- `KeyManager::get_or_create_key_with_txn` of `src/crypto.rs`. `freshKey` is
the 32-byte `OsRng` output used when no wrapped key exists yet, `keyNonce` the
12-byte nonce used to wrap it; the wrap AAD is the big-endian stream id. -/
def getOrCreateKeyWithTxn (mk : Option (List Nat)) (freshKey keyNonce : List Nat)
    (st : Store) (sid : Nat) : Except Error (List Nat × Store) :=
  match assocGet st.keystore sid with
  | some wrapped =>
    match getMasterKey mk with
    | .error e => .error e
    | .ok master =>
      match cryptoDecrypt master wrapped (beBytes 16 sid) with
      | .error e => .error e
      | .ok pt =>
        if pt.length ≠ 32 then .error (.invalidKeyLength pt.length 32)
        else .ok (pt, st)
  | none =>
    match getMasterKey mk with
    | .error e => .error e
    | .ok master =>
      .ok (freshKey,
        { st with keystore :=
            assocPut st.keystore sid (cryptoEncrypt master keyNonce freshKey (beBytes 16 sid)) })

/-- `KeyManager::get_key_with_txn` of `src/crypto.rs`: read-only unwrap of the
per-stream key; `none` when the keystore has no entry. -/
def getKeyWithTxn (mk : Option (List Nat)) (st : Store) (sid : Nat) :
    Except Error (Option (List Nat)) :=
  match assocGet st.keystore sid with
  | some wrapped =>
    match getMasterKey mk with
    | .error e => .error e
    | .ok master =>
      match cryptoDecrypt master wrapped (beBytes 16 sid) with
      | .error e => .error e
      | .ok pt =>
        if pt.length ≠ 32 then .error (.invalidKeyLength pt.length 32)
        else .ok (some pt)
  | none => .ok none

/-- `KeyManager::delete_key` of `src/crypto.rs`: remove the wrapped key for a
stream in its own committed write transaction. -/
def deleteKey (st : Store) (sid : Nat) : Store :=
  { st with keystore := assocDelete st.keystore sid }

/-- The inputs of one `Writer::append` call: stream id, version, the rkyv
serialization of the user event, and the oracle randomness (fresh stream key,
event nonce, key-wrap nonce) the call may consume. -/
structure AppendReq where
  sid : Nat
  ver : Nat
  eventBytes : List Nat
  freshKey : List Nat
  nonce : List Nat
  keyNonce : List Nat
deriving DecidableEq, Repr

/-- `Writer::append` of `src/engine.rs` inside its write transaction:
concurrency check on the stream index, global-sequence assignment
`last_key + 1`, inline/blob routing at the 2048-byte `MAX_INLINE_SIZE`
threshold, envelope serialization, optional encryption (AAD = stream id 16 BE
followed by the new sequence 8 BE, stored value prefixed with the stream id),
then the two namespace writes. Errors abort the transaction. -/
def appendCore (enc : Bool) (mk : Option (List Nat)) (req : AppendReq) (st : Store) :
    Except Error (Store × Nat) :=
  let keyBytes := streamKeyBytes req.sid req.ver
  if (assocGet st.streamIndex keyBytes).isSome then
    .error (.concurrencyConflict req.sid req.ver)
  else
    let newSeq := lastSeq st.eventsLog + 1
    let routed : StoragePayload × Store :=
      if req.eventBytes.length > 2048 then
        (.blobRef (sha256 req.eventBytes),
         { st with blobs := assocPut st.blobs (sha256 req.eventBytes) req.eventBytes })
      else
        (.inline req.eventBytes, st)
    let bytes := encodePayload routed.1
    let enced : Except Error (List Nat × Store) :=
      if enc then
        match getOrCreateKeyWithTxn mk req.freshKey req.keyNonce routed.2 req.sid with
        | .error e => .error e
        | .ok (key, st2) =>
          .ok (beBytes 16 req.sid ++
                cryptoEncrypt key req.nonce bytes (beBytes 16 req.sid ++ beBytes 8 newSeq),
               st2)
      else
        .ok (bytes, routed.2)
    match enced with
    | .error e => .error e
    | .ok (finalBytes, st2) =>
      .ok ({ st2 with
              eventsLog := assocPut st2.eventsLog newSeq finalBytes,
              streamIndex := assocPut st2.streamIndex keyBytes newSeq },
           newSeq)

/-- `Writer::append` observed from outside the transaction: on success the
committed state changes, on any error the transaction is rolled back and the
store is unchanged. -/
def appendApply (enc : Bool) (mk : Option (List Nat)) (req : AppendReq) (st : Store) :
    Store × Except Error Nat :=
  match appendCore enc mk req st with
  | .ok (st2, s) => (st2, .ok s)
  | .error e => (st, .error e)

/-- The envelope-and-validation tail of `Reader::get` of `src/engine.rs`:
structurally validate the payload envelope, resolve an inline body or a blob
reference against the blob store, then run `check_archived_root::<E>` on the
final bytes (modelled by `checkE`). -/
def finishRead (checkE : List Nat → Bool) (st : Store) (payloadBytes : List Nat) :
    Except Error (Option (List Nat)) :=
  match decodePayload payloadBytes with
  | none => .error (.eventValidation "invalid payload archive")
  | some (.inline b) =>
    if checkE b then .ok (some b) else .error (.eventValidation "invalid event archive")
  | some (.blobRef h) =>
    match assocGet st.blobs h with
    | none => .error (.eventValidation "Blob not found")
    | some b =>
      if checkE b then .ok (some b) else .error (.eventValidation "invalid event archive")

/-- `Reader::get` of `src/engine.rs`: look up `events_log[seq]`; when
encryption is enabled, require at least `ENCRYPTED_EVENT_MIN_SIZE = 44` bytes,
split off the 16-byte stream id, fetch the stream key (absent key is
`KeyNotFound`), AEAD-decrypt with AAD = stream-id bytes followed by the
sequence (8 bytes BE); then validate and resolve via `finishRead`. Returns the
validated serialized event bytes (the bytes the `EventView` exposes). -/
def readerGet (enc : Bool) (mk : Option (List Nat)) (checkE : List Nat → Bool)
    (st : Store) (seq : Nat) : Except Error (Option (List Nat)) :=
  match assocGet st.eventsLog seq with
  | none => .ok none
  | some bytes =>
    let payloadRes : Except Error (List Nat) :=
      if enc then
        if bytes.length < 44 then
          .error (.invalidEncryptedEventLength bytes.length 44)
        else
          let streamIdBytes := bytes.take 16
          match getKeyWithTxn mk st (natFromBe streamIdBytes) with
          | .error e => .error e
          | .ok none => .error (.keyNotFound (natFromBe streamIdBytes))
          | .ok (some key) =>
            cryptoDecrypt key (bytes.drop 16) (streamIdBytes ++ beBytes 8 seq)
      else
        .ok bytes
    match payloadRes with
    | .error e => .error e
    | .ok payloadBytes => finishRead checkE st payloadBytes

/-- Modelled from the spec: `Reader::get_by_stream`. The snapshot under `src/`
only contains its caller (`Varve::get_by_stream` in `src/varve.rs` delegates to
`self.reader.get_by_stream`); per spec §4.4 it resolves
`stream_index[(stream_id, version)]` to a sequence and then performs `get`. -/
def getByStream (enc : Bool) (mk : Option (List Nat)) (checkE : List Nat → Bool)
    (st : Store) (sid ver : Nat) : Except Error (Option (List Nat)) :=
  match assocGet st.streamIndex (streamKeyBytes sid ver) with
  | none => .ok none
  | some seq => readerGet enc mk checkE st seq

/-- `StreamVersion::new` of `src/varve.rs`: versions are `NonZeroU32`, so `0`
is rejected. -/
def streamVersionNew (v : Nat) : Option Nat :=
  if v = 0 then none else some v

/-- `Processor::run` of `src/processor.rs`: the initial cursor load,
`consumer_cursors[consumer_id]` defaulting to `0`. -/
def loadCursor (st : Store) (consumerId : Nat) : Nat :=
  (assocGet st.consumerCursors consumerId).getD 0

/-- Whether `Reader::get` at sequence `s` would hand an event to the handler
(`Ok(Some(event))`); the crash-free delivery predicate of the processor. -/
def deliverOk (enc : Bool) (mk : Option (List Nat)) (checkE : List Nat → Bool)
    (st : Store) (s : Nat) : Bool :=
  match readerGet enc mk checkE st s with
  | .ok (some _) => true
  | _ => false

/-- The inner batch loop of `Processor::process_backlog`: starting from
`cur`, repeatedly fetch `cur + 1` and hand it to the handler, stopping when
the target is reached, the fetch misses (snapshot end), or the batch fills.
Returns the new current sequence, the new pending count, the snapshot-end
flag, and the list of sequences handed to the handler, in call order. -/
def innerBatch (present : Nat → Bool) (batchSize : Nat) :
    Nat → Nat → Nat → Nat × Nat × Bool × List Nat
  | cur, target, pending =>
    if h : cur < target then
      if present (cur + 1) then
        if batchSize ≤ pending + 1 then
          (cur + 1, pending + 1, false, [cur + 1])
        else
          let r := innerBatch present batchSize (cur + 1) target (pending + 1)
          (r.1, r.2.1, r.2.2.1, (cur + 1) :: r.2.2.2)
      else
        (cur, pending, true, [])
    else
      (cur, pending, false, [])
termination_by cur target _ => target - cur

/-- The outer loop of `Processor::process_backlog`, fuelled: run inner batches
until `target` is reached, committing the cursor (which resets the pending
count) when the batch fills or the batch timeout has elapsed (`tmo`, an oracle
over iterations, models `last_commit.elapsed() >= batch_timeout`; cursor
commits touch only `consumer_cursors` and are not part of the handler trace).
Returns the full handler trace, or `none` if the fuel runs out. -/
def outerDrain (present : Nat → Bool) (batchSize : Nat) (tmo : Nat → Bool) :
    Nat → Nat → Nat → Nat → Option (List Nat)
  | 0, _, _, _ => none
  | fuel + 1, cur, target, pending =>
    if cur < target then
      let r := innerBatch present batchSize cur target pending
      let processedAny := r.2.2.2 ≠ []
      let pending2 := if batchSize ≤ r.2.1 ∨ (processedAny ∧ tmo fuel) then 0 else r.2.1
      match outerDrain present batchSize tmo fuel r.1 target pending2 with
      | none => none
      | some tr => some (r.2.2.2 ++ tr)
    else
      some []

/-- `create_database` inside the open transaction: creates the named database
if it is missing, else opens it. -/
def createDb (txn : List String) (name : String) : List String :=
  if name ∈ txn then txn else txn ++ [name]

/-- The five logical namespaces of the store. -/
def varveNamespaces : List String :=
  ["events_log", "stream_index", "consumer_cursors", "keystore", "blobs"]

/-- Modelled from the spec: `Storage::open`. The snapshot of
`src/storage/mod.rs` creates `events_log`, `stream_index`, `consumer_cursors`
and `keystore` in one write transaction committed before returning, but lacks
the `blobs` database that `Writer::append`, `Reader::get` and the repository
tests use through `storage.blobs`; per spec §4.1 the open routine
creates or opens all five namespaces in that same single transaction. The
argument is the committed set of named databases, the result the committed
set after the transaction commits. -/
def storageOpen (committed : List String) : List String :=
  varveNamespaces.foldl createDb committed

/-- A sequence of `Writer::append` calls: a successful append commits its
transaction, a failed one rolls back and leaves the store unchanged; the
successful appends are counted. -/
def appendAll (enc : Bool) (mk : Option (List Nat)) : List AppendReq → Store → Store × Nat
  | [], st => (st, 0)
  | r :: rs, st =>
    match appendCore enc mk r st with
    | .ok (st1, _) =>
      let p := appendAll enc mk rs st1
      (p.1, p.2 + 1)
    | .error _ => appendAll enc mk rs st

/-- The store shape after `n` successful appends: the events-log keys are
exactly `1, …, n` in insertion order, the stream index has exactly `n`
entries with pairwise distinct 20-byte keys whose sequence values are exactly
`1, …, n`. -/
def StoreShape (st : Store) (n : Nat) : Prop :=
  st.eventsLog.map Prod.fst = List.range' 1 n ∧
  st.streamIndex.map Prod.snd = List.range' 1 n ∧
  (st.streamIndex.map Prod.fst).Nodup ∧
  st.streamIndex.length = n

/-- Whether a read result is the structural-validation failure
(`Error::EventValidation`, the error kind realizing the spec's
`CorruptRecord`). -/
def isValidationError : Except Error (Option (List Nat)) → Bool
  | .error (.eventValidation _) => true
  | _ => false

/-- A validation oracle accepting every byte image (an event type whose
archived form the stored bytes always satisfy). -/
def checkAll : List Nat → Bool := fun _ => true

/-- Concrete 32-byte master key used by the evaluation fixtures. -/
def masterW : List Nat := List.replicate 32 7

/-- Concrete append request (stream 1, version 1, 1-byte event, honest
randomness) used by the evaluation fixtures. -/
def reqW : AppendReq :=
  { sid := 1, ver := 1, eventBytes := [7],
    freshKey := List.replicate 32 1, nonce := List.replicate 12 2,
    keyNonce := List.replicate 12 3 }

/-- Store obtained by one successful encrypted append of `reqW` on the empty
store. -/
def stW1 : Store :=
  match appendCore true (some masterW) reqW emptyStore with
  | .ok (st, _) => st
  | .error _ => emptyStore

/-- Store whose stream index already holds `(stream 1, version 1)`. -/
def stC2 : Store :=
  { emptyStore with streamIndex := [(streamKeyBytes 1 1, 1)] }

/-- Store holding a 3-byte (hence too short) encrypted record at sequence 1. -/
def stShort : Store :=
  { emptyStore with eventsLog := [(1, [9, 9, 9])] }

/-- Original per-stream key of the crypto-shredding fixture. -/
def kW : List Nat := List.replicate 32 1

/-- Regenerated per-stream key of the crypto-shredding fixture. -/
def k2W : List Nat := List.replicate 32 2

/-- Event nonce of the crypto-shredding fixture. -/
def nonceW : List Nat := List.replicate 12 2

/-- Key-wrap nonce of the crypto-shredding fixture. -/
def knW : List Nat := List.replicate 12 3

/-- Stored encrypted record of the crypto-shredding fixture: stream 5,
sequence 1, inline event byte 7. -/
def storedW : List Nat :=
  beBytes 16 5 ++ nonceW ++ encodePayload (.inline [7]) ++
    aeadTag kW nonceW (encodePayload (.inline [7])) (beBytes 16 5 ++ beBytes 8 1)

/-- Store of the crypto-shredding fixture: the record of `storedW` in the
events log and the wrapped original key in the keystore. -/
def stC7 : Store :=
  { emptyStore with
      eventsLog := [(1, storedW)],
      keystore := [(5, cryptoEncrypt masterW knW kW (beBytes 16 5))] }

/-- Store after shredding stream 5 of the fixture and regenerating a fresh
key for it. -/
def st2C7 : Store :=
  match getOrCreateKeyWithTxn (some masterW) k2W knW (deleteKey stC7 5) 5 with
  | .ok (_, st) => st
  | .error _ => emptyStore

/-- Plain-mode store holding two inline events, for the processor fixture. -/
def stC9 : Store :=
  { emptyStore with eventsLog := [(1, [0, 7]), (2, [0, 8])] }

/-- Append request with version 0 used by the version-validation fixture. -/
def reqV0 : AppendReq :=
  { sid := 3, ver := 0, eventBytes := [5], freshKey := [], nonce := [], keyNonce := [] }

theorem leBytes_length (w : Nat) : ∀ n, (leBytes w n).length = w := by
  induction w with
  | zero => intro n; rfl
  | succ w ih => intro n; simp [leBytes, ih]

theorem beBytes_length (w n : Nat) : (beBytes w n).length = w := by
  simp [beBytes, leBytes_length]

theorem natFromBe_append (l : List Nat) (b : Nat) :
    natFromBe (l ++ [b]) = natFromBe l * 256 + b := by
  simp [natFromBe, List.foldl_append]

theorem beBytes_succ (w n : Nat) :
    beBytes (w + 1) n = beBytes w (n / 256) ++ [n % 256] := by
  simp [beBytes, leBytes]

theorem natFromBe_beBytes (w : Nat) : ∀ n, natFromBe (beBytes w n) = n % 256 ^ w := by
  induction w with
  | zero => intro n; simp [beBytes, leBytes, natFromBe]; omega
  | succ w ih =>
    intro n
    rw [beBytes_succ, natFromBe_append, ih]
    have h : (256 : Nat) ^ (w + 1) = 256 * 256 ^ w := by ring
    rw [h, Nat.mod_mul]
    ring

theorem assocGet_put_self {α β : Type} [DecidableEq α] (l : List (α × β)) (k : α) (v : β) :
    assocGet (assocPut l k v) k = some v := by
  induction l with
  | nil => simp [assocGet, assocPut]
  | cons p rest ih =>
    obtain ⟨k1, v1⟩ := p
    by_cases h : k1 = k <;> simp [assocPut, assocGet, h, ih]

theorem assocGet_none_iff {α β : Type} [DecidableEq α] (l : List (α × β)) (k : α) :
    assocGet l k = none ↔ k ∉ l.map Prod.fst := by
  induction l with
  | nil => simp [assocGet]
  | cons p rest ih =>
    obtain ⟨k1, v1⟩ := p
    by_cases h : k1 = k
    · subst h; simp [assocGet]
    · simp only [List.map_cons, List.mem_cons, assocGet, if_neg h, ih]
      constructor
      · intro hk hor
        rcases hor with h1 | h2
        · exact h h1.symm
        · exact hk h2
      · intro hk h2
        exact hk (Or.inr h2)

theorem assocPut_of_none {α β : Type} [DecidableEq α] {l : List (α × β)} {k : α}
    (v : β) (h : assocGet l k = none) : assocPut l k v = l ++ [(k, v)] := by
  induction l with
  | nil => simp [assocPut]
  | cons p rest ih =>
    obtain ⟨k1, v1⟩ := p
    by_cases hk : k1 = k
    · simp [assocGet, hk] at h
    · simp [assocGet, hk] at h
      simp [assocPut, hk, ih h]

theorem assocGet_delete_self {α β : Type} [DecidableEq α] (l : List (α × β)) (k : α) :
    assocGet (assocDelete l k) k = none := by
  induction l with
  | nil => simp [assocDelete, assocGet]
  | cons p rest ih =>
    obtain ⟨k1, v1⟩ := p
    by_cases h : k1 = k <;> simp [assocDelete, assocGet, h, ih]

theorem lastSeq_eq_keys {β : Type} (l : List (Nat × β)) :
    lastSeq l = (l.map Prod.fst).foldl max 0 := by
  simp [lastSeq, List.foldl_map]

theorem foldl_max_range' (n : Nat) : (List.range' 1 n).foldl max 0 = n := by
  induction n with
  | zero => simp
  | succ n ih =>
    rw [List.range'_1_concat, List.foldl_append, ih]
    simp [Nat.max_def]
    omega

theorem lastSeq_of_shape {β : Type} {l : List (Nat × β)} {n : Nat}
    (h : l.map Prod.fst = List.range' 1 n) : lastSeq l = n := by
  rw [lastSeq_eq_keys, h, foldl_max_range']

theorem aeadTag_length (key nonce pt aad : List Nat) :
    (aeadTag key nonce pt aad).length = 16 := by
  simp [aeadTag]

theorem aeadDecrypt_encrypt (key nonce pt aad : List Nat) :
    aeadDecrypt key nonce (aeadEncrypt key nonce pt aad) aad = some pt := by
  have hlen : (aeadEncrypt key nonce pt aad).length = pt.length + 16 := by
    simp [aeadEncrypt, aeadTag_length]
  have hm : pt.length + 16 - 16 = pt.length := by omega
  have htake : (aeadEncrypt key nonce pt aad).take
      ((aeadEncrypt key nonce pt aad).length - 16) = pt := by
    rw [hlen, hm]; exact List.take_left' rfl
  have hdrop : (aeadEncrypt key nonce pt aad).drop
      ((aeadEncrypt key nonce pt aad).length - 16) = aeadTag key nonce pt aad := by
    rw [hlen, hm]; exact List.drop_left' rfl
  unfold aeadDecrypt
  rw [if_pos]
  · rw [htake]
  · exact ⟨by omega, by rw [hdrop, htake]⟩

theorem cryptoDecrypt_encrypt (key nonce pt aad : List Nat) (h : nonce.length = 12) :
    cryptoDecrypt key (cryptoEncrypt key nonce pt aad) aad = .ok pt := by
  have hlen : (cryptoEncrypt key nonce pt aad).length = 12 + (pt.length + 16) := by
    simp [cryptoEncrypt, aeadEncrypt, aeadTag_length, h]
  unfold cryptoDecrypt
  rw [if_neg (by omega)]
  have htake : (cryptoEncrypt key nonce pt aad).take 12 = nonce := List.take_left' h
  have hdrop : (cryptoEncrypt key nonce pt aad).drop 12 = aeadEncrypt key nonce pt aad :=
    List.drop_left' h
  rw [htake, hdrop, aeadDecrypt_encrypt]

theorem sha256_length (b : List Nat) : (sha256 b).length = 32 := by
  simp [sha256, beBytes_length]

theorem decode_encode_inline (b : List Nat) :
    decodePayload (encodePayload (.inline b)) = some (.inline b) := by
  simp [encodePayload, decodePayload]

theorem decode_encode_blobRef {h : List Nat} (h32 : h.length = 32) :
    decodePayload (encodePayload (.blobRef h)) = some (.blobRef h) := by
  simp [encodePayload, decodePayload, h32]

theorem getKeyWithTxn_keystore {mk : Option (List Nat)} {st st2 : Store} (sid : Nat)
    (h : st2.keystore = st.keystore) :
    getKeyWithTxn mk st2 sid = getKeyWithTxn mk st sid := by
  unfold getKeyWithTxn
  rw [h]

theorem getOrCreate_frame {mk : Option (List Nat)} {fk kn : List Nat} {st : Store} {sid : Nat}
    {key : List Nat} {st2 : Store}
    (h : getOrCreateKeyWithTxn mk fk kn st sid = .ok (key, st2)) :
    st2.eventsLog = st.eventsLog ∧ st2.streamIndex = st.streamIndex ∧
    st2.blobs = st.blobs ∧ st2.consumerCursors = st.consumerCursors := by
  unfold getOrCreateKeyWithTxn at h
  split at h
  · split at h
    · simp at h
    · split at h
      · simp at h
      · split at h
        · simp at h
        · rw [Except.ok.injEq, Prod.mk.injEq] at h
          obtain ⟨-, hst⟩ := h
          subst hst
          exact ⟨rfl, rfl, rfl, rfl⟩
  · split at h
    · simp at h
    · rw [Except.ok.injEq, Prod.mk.injEq] at h
      obtain ⟨-, hst⟩ := h
      subst hst
      exact ⟨rfl, rfl, rfl, rfl⟩

theorem getOrCreate_read {mk : Option (List Nat)} {fk kn : List Nat} {st : Store} {sid : Nat}
    {key : List Nat} {st2 : Store}
    (h : getOrCreateKeyWithTxn mk fk kn st sid = .ok (key, st2))
    (hfk : fk.length = 32) (hkn : kn.length = 12) :
    getKeyWithTxn mk st2 sid = .ok (some key) := by
  unfold getOrCreateKeyWithTxn at h
  cases hks : assocGet st.keystore sid with
  | some wrapped =>
    simp only [hks] at h
    cases hmk : getMasterKey mk with
    | error e => simp only [hmk] at h; exact absurd h (by simp)
    | ok master =>
      simp only [hmk] at h
      cases hdec : cryptoDecrypt master wrapped (beBytes 16 sid) with
      | error e => simp only [hdec] at h; exact absurd h (by simp)
      | ok pt =>
        simp only [hdec] at h
        by_cases hlen : pt.length ≠ 32
        · rw [if_pos hlen] at h; exact absurd h (by simp)
        · rw [if_neg hlen] at h
          rw [Except.ok.injEq, Prod.mk.injEq] at h
          obtain ⟨hk, hst⟩ := h
          subst hk; subst hst
          simp only [getKeyWithTxn, hks, hmk, hdec]
          rw [if_neg hlen]
  | none =>
    simp only [hks] at h
    cases hmk : getMasterKey mk with
    | error e => simp only [hmk] at h; exact absurd h (by simp)
    | ok master =>
      simp only [hmk] at h
      rw [Except.ok.injEq, Prod.mk.injEq] at h
      obtain ⟨hk, hst⟩ := h
      subst hk; subst hst
      simp only [getKeyWithTxn, assocGet_put_self, hmk,
        cryptoDecrypt_encrypt master kn fk (beBytes 16 sid) hkn]
      rw [if_neg (by omega)]

theorem aeadTag_getD (k nonce pt aad : List Nat) (i : Nat) (hi : i < 16) :
    (aeadTag k nonce pt aad).getD i 0 = keyCell k i + 65536 * tagDigest nonce pt aad := by
  unfold aeadTag
  rw [List.getD_eq_getElem?_getD, List.getElem?_map, List.getElem?_range hi]
  rfl

theorem getD_mem_of_lt {l : List Nat} {j : Nat} (hj : j < l.length) : l.getD j 0 ∈ l := by
  rw [List.getD_eq_getElem?_getD, List.getElem?_eq_getElem hj]
  exact List.getElem_mem hj

theorem aeadTag_key_inj {k1 k2 nonce pt aad : List Nat}
    (h1 : k1.length = 32) (h2 : k2.length = 32)
    (b1 : ∀ x ∈ k1, x < 256) (b2 : ∀ x ∈ k2, x < 256)
    (heq : aeadTag k1 nonce pt aad = aeadTag k2 nonce pt aad) : k1 = k2 := by
  have hbound1 : ∀ j, j < 32 → k1.getD j 0 < 256 := by
    intro j hj
    exact b1 _ (getD_mem_of_lt (by omega))
  have hbound2 : ∀ j, j < 32 → k2.getD j 0 < 256 := by
    intro j hj
    exact b2 _ (getD_mem_of_lt (by omega))
  have hcell : ∀ i, i < 16 → keyCell k1 i = keyCell k2 i := by
    intro i hi
    have h := congrArg (fun l : List Nat => l.getD i 0) heq
    simp only at h
    rw [aeadTag_getD k1 nonce pt aad i hi, aeadTag_getD k2 nonce pt aad i hi] at h
    omega
  have hbyte : ∀ j, j < 32 → k1.getD j 0 = k2.getD j 0 := by
    intro j hj
    have hj2 : j / 2 < 16 := by omega
    have hc := hcell (j / 2) hj2
    unfold keyCell at hc
    have e10 : k1.getD (2 * (j / 2)) 0 % 256 = k1.getD (2 * (j / 2)) 0 :=
      Nat.mod_eq_of_lt (hbound1 _ (by omega))
    have e11 : k1.getD (2 * (j / 2) + 1) 0 % 256 = k1.getD (2 * (j / 2) + 1) 0 := by
      by_cases hb : 2 * (j / 2) + 1 < 32
      · exact Nat.mod_eq_of_lt (hbound1 _ hb)
      · have : k1.getD (2 * (j / 2) + 1) 0 = 0 := by
          rw [List.getD_eq_getElem?_getD, List.getElem?_eq_none (by omega)]
          rfl
        rw [this]
    have e20 : k2.getD (2 * (j / 2)) 0 % 256 = k2.getD (2 * (j / 2)) 0 :=
      Nat.mod_eq_of_lt (hbound2 _ (by omega))
    have e21 : k2.getD (2 * (j / 2) + 1) 0 % 256 = k2.getD (2 * (j / 2) + 1) 0 := by
      by_cases hb : 2 * (j / 2) + 1 < 32
      · exact Nat.mod_eq_of_lt (hbound2 _ hb)
      · have : k2.getD (2 * (j / 2) + 1) 0 = 0 := by
          rw [List.getD_eq_getElem?_getD, List.getElem?_eq_none (by omega)]
          rfl
        rw [this]
    rw [e10, e11, e20, e21] at hc
    have ha : k1.getD (2 * (j / 2)) 0 = k2.getD (2 * (j / 2)) 0 := by
      have q1 := hbound1 (2 * (j / 2)) (by omega)
      have q2 := hbound2 (2 * (j / 2)) (by omega)
      omega
    have hb' : k1.getD (2 * (j / 2) + 1) 0 = k2.getD (2 * (j / 2) + 1) 0 := by
      have q1 := hbound1 (2 * (j / 2)) (by omega)
      have q2 := hbound2 (2 * (j / 2)) (by omega)
      omega
    rcases Nat.mod_two_eq_zero_or_one j with hm | hm
    · have : j = 2 * (j / 2) := by omega
      rw [this]; exact ha
    · have : j = 2 * (j / 2) + 1 := by omega
      rw [this]; exact hb'
  apply List.ext_getElem (by omega)
  intro i hi1 hi2
  have hi32 : i < 32 := by omega
  have h := hbyte i hi32
  rw [List.getD_eq_getElem?_getD, List.getElem?_eq_getElem hi1,
      List.getD_eq_getElem?_getD, List.getElem?_eq_getElem hi2] at h
  exact h

theorem finishRead_inline {checkE : List Nat → Bool} {st : Store} {b : List Nat}
    (hc : checkE b = true) :
    finishRead checkE st (encodePayload (.inline b)) = .ok (some b) := by
  unfold finishRead
  rw [decode_encode_inline]
  simp [hc]

theorem finishRead_blobRef {checkE : List Nat → Bool} {st : Store} {h b : List Nat}
    (h32 : h.length = 32) (hb : assocGet st.blobs h = some b) (hc : checkE b = true) :
    finishRead checkE st (encodePayload (.blobRef h)) = .ok (some b) := by
  unfold finishRead
  rw [decode_encode_blobRef h32]
  simp [hb, hc]

theorem readerGet_plain_stored {mk : Option (List Nat)} {checkE : List Nat → Bool}
    {st : Store} {seq : Nat} {bytes : List Nat}
    (hlog : assocGet st.eventsLog seq = some bytes) :
    readerGet false mk checkE st seq = finishRead checkE st bytes := by
  unfold readerGet
  simp only [hlog, Bool.false_eq_true, if_false]

theorem readerGet_encrypted_stored {mk : Option (List Nat)} {checkE : List Nat → Bool}
    {st : Store} {seq sid : Nat} {key env nonce : List Nat}
    (hsid : sid < 2 ^ 128) (hnonce : nonce.length = 12)
    (hlog : assocGet st.eventsLog seq =
      some (beBytes 16 sid ++ cryptoEncrypt key nonce env (beBytes 16 sid ++ beBytes 8 seq)))
    (hkey : getKeyWithTxn mk st sid = .ok (some key)) :
    readerGet true mk checkE st seq = finishRead checkE st env := by
  have hblen : (beBytes 16 sid ++
      cryptoEncrypt key nonce env (beBytes 16 sid ++ beBytes 8 seq)).length =
      16 + (12 + (env.length + 16)) := by
    simp [cryptoEncrypt, aeadEncrypt, beBytes_length, aeadTag_length, hnonce]
  have htake : (beBytes 16 sid ++
      cryptoEncrypt key nonce env (beBytes 16 sid ++ beBytes 8 seq)).take 16 =
      beBytes 16 sid := List.take_left' (beBytes_length 16 sid)
  have hdrop : (beBytes 16 sid ++
      cryptoEncrypt key nonce env (beBytes 16 sid ++ beBytes 8 seq)).drop 16 =
      cryptoEncrypt key nonce env (beBytes 16 sid ++ beBytes 8 seq) :=
    List.drop_left' (beBytes_length 16 sid)
  have hid : natFromBe (beBytes 16 sid) = sid := by
    rw [natFromBe_beBytes]
    exact Nat.mod_eq_of_lt (by
      have : (256 : Nat) ^ 16 = 2 ^ 128 := by norm_num
      omega)
  have hcond : ¬ ((beBytes 16 sid ++
      cryptoEncrypt key nonce env (beBytes 16 sid ++ beBytes 8 seq)).length < 44) := by
    rw [hblen]; omega
  unfold readerGet
  simp only [hlog, eq_self_iff_true, if_true, if_neg hcond, htake, hid, hkey, hdrop,
    cryptoDecrypt_encrypt key nonce env (beBytes 16 sid ++ beBytes 8 seq) hnonce]

theorem appendCore_ok_inv {enc : Bool} {mk : Option (List Nat)} {req : AppendReq}
    {st st2 : Store} {seq : Nat}
    (h : appendCore enc mk req st = .ok (st2, seq)) :
    assocGet st.streamIndex (streamKeyBytes req.sid req.ver) = none ∧
    seq = lastSeq st.eventsLog + 1 ∧
    ∃ stR env,
      ((req.eventBytes.length > 2048 ∧
          stR = { st with blobs := assocPut st.blobs (sha256 req.eventBytes) req.eventBytes } ∧
          env = encodePayload (.blobRef (sha256 req.eventBytes))) ∨
       (¬ req.eventBytes.length > 2048 ∧ stR = st ∧
          env = encodePayload (.inline req.eventBytes))) ∧
      ∃ stM finalBytes,
        ((enc = true ∧ ∃ key,
            getOrCreateKeyWithTxn mk req.freshKey req.keyNonce stR req.sid = .ok (key, stM) ∧
            finalBytes = beBytes 16 req.sid ++
              cryptoEncrypt key req.nonce env (beBytes 16 req.sid ++ beBytes 8 seq)) ∨
         (enc = false ∧ stM = stR ∧ finalBytes = env)) ∧
        st2 = { stM with
                  eventsLog := assocPut stM.eventsLog seq finalBytes,
                  streamIndex := assocPut stM.streamIndex (streamKeyBytes req.sid req.ver) seq } := by
  by_cases hconf : (assocGet st.streamIndex (streamKeyBytes req.sid req.ver)).isSome
  · unfold appendCore at h
    rw [if_pos hconf] at h
    simp at h
  · have hnone : assocGet st.streamIndex (streamKeyBytes req.sid req.ver) = none :=
      Option.not_isSome_iff_eq_none.mp hconf
    refine ⟨hnone, ?_⟩
    unfold appendCore at h
    rw [if_neg hconf] at h
    by_cases hroute : req.eventBytes.length > 2048
    · simp only [if_pos hroute] at h
      cases enc with
      | false =>
        simp only [Bool.false_eq_true, if_false] at h
        rw [Except.ok.injEq, Prod.mk.injEq] at h
        obtain ⟨hst, hseq⟩ := h
        refine ⟨hseq.symm, _, _, Or.inl ⟨hroute, rfl, rfl⟩, _, _,
          Or.inr ⟨rfl, rfl, rfl⟩, ?_⟩
        rw [hseq] at hst
        exact hst.symm
      | true =>
        simp only [eq_self_iff_true, if_true] at h
        cases hg : getOrCreateKeyWithTxn mk req.freshKey req.keyNonce
            { st with blobs := assocPut st.blobs (sha256 req.eventBytes) req.eventBytes }
            req.sid with
        | error e => simp only [hg] at h; simp at h
        | ok p =>
          obtain ⟨key, stM⟩ := p
          simp only [hg] at h
          rw [Except.ok.injEq, Prod.mk.injEq] at h
          obtain ⟨hst, hseq⟩ := h
          refine ⟨hseq.symm, _, _, Or.inl ⟨hroute, rfl, rfl⟩, stM, _,
            Or.inl ⟨rfl, key, hg, rfl⟩, ?_⟩
          rw [hseq] at hst
          exact hst.symm
    · simp only [if_neg hroute] at h
      cases enc with
      | false =>
        simp only [Bool.false_eq_true, if_false] at h
        rw [Except.ok.injEq, Prod.mk.injEq] at h
        obtain ⟨hst, hseq⟩ := h
        refine ⟨hseq.symm, _, _, Or.inr ⟨hroute, rfl, rfl⟩, _, _,
          Or.inr ⟨rfl, rfl, rfl⟩, ?_⟩
        rw [hseq] at hst
        exact hst.symm
      | true =>
        simp only [eq_self_iff_true, if_true] at h
        cases hg : getOrCreateKeyWithTxn mk req.freshKey req.keyNonce st req.sid with
        | error e => simp only [hg] at h; simp at h
        | ok p =>
          obtain ⟨key, stM⟩ := p
          simp only [hg] at h
          rw [Except.ok.injEq, Prod.mk.injEq] at h
          obtain ⟨hst, hseq⟩ := h
          refine ⟨hseq.symm, _, _, Or.inr ⟨hroute, rfl, rfl⟩, stM, _,
            Or.inl ⟨rfl, key, hg, rfl⟩, ?_⟩
          rw [hseq] at hst
          exact hst.symm

/-- C1: after a successful `append(s, v, e)`, reading the assigned global
sequence, and reading by `(s, v)`, both return the serialized event bytes of
`e` unchanged (hence an event structurally equal to `e`), for both encryption
modes and both payload routes. The length side conditions reflect the `u128`
stream-id type and the `[u8; 12]` / `[u8; 32]` random buffers of the source;
`hcheck` states that `e` validates against its own archived form. -/
theorem append_read_roundtrip (enc : Bool) (mk : Option (List Nat))
    (checkE : List Nat → Bool) (req : AppendReq) (st st2 : Store) (seq : Nat)
    (happ : appendCore enc mk req st = .ok (st2, seq))
    (hsid : req.sid < 2 ^ 128)
    (hnonce : req.nonce.length = 12)
    (hfresh : req.freshKey.length = 32)
    (hknl : req.keyNonce.length = 12)
    (hcheck : checkE req.eventBytes = true) :
    readerGet enc mk checkE st2 seq = .ok (some req.eventBytes) ∧
    getByStream enc mk checkE st2 req.sid req.ver = .ok (some req.eventBytes) := by
  obtain ⟨hconf, hseq, stR, env, hroute, stM, fb, hencd, hst2⟩ := appendCore_ok_inv happ
  have h2log : st2.eventsLog = assocPut stM.eventsLog seq fb := by rw [hst2]
  have h2idx : st2.streamIndex =
      assocPut stM.streamIndex (streamKeyBytes req.sid req.ver) seq := by rw [hst2]
  have h2blobs : st2.blobs = stM.blobs := by rw [hst2]
  have h2ks : st2.keystore = stM.keystore := by rw [hst2]
  have hlook : assocGet st2.eventsLog seq = some fb := by
    rw [h2log]; exact assocGet_put_self _ _ _
  have hfin : finishRead checkE st2 env = .ok (some req.eventBytes) := by
    rcases hroute with ⟨hbig, hstR, henv⟩ | ⟨hsmall, hstR, henv⟩
    · subst henv
      refine finishRead_blobRef (sha256_length _) ?_ hcheck
      have hMblobs : stM.blobs = stR.blobs := by
        rcases hencd with ⟨-, key, hg, -⟩ | ⟨-, hMR, -⟩
        · exact (getOrCreate_frame hg).2.2.1
        · rw [hMR]
      rw [h2blobs, hMblobs, hstR]
      exact assocGet_put_self _ _ _
    · subst henv
      exact finishRead_inline hcheck
  have hread : readerGet enc mk checkE st2 seq = .ok (some req.eventBytes) := by
    rcases hencd with ⟨hencT, key, hg, hfb⟩ | ⟨hencF, hMR, hfb⟩
    · subst hencT
      subst hfb
      have hkey2 : getKeyWithTxn mk st2 req.sid = .ok (some key) := by
        rw [getKeyWithTxn_keystore req.sid h2ks]
        exact getOrCreate_read hg hfresh hknl
      rw [readerGet_encrypted_stored hsid hnonce hlook hkey2]
      exact hfin
    · subst hencF
      subst hfb
      rw [readerGet_plain_stored hlook]
      exact hfin
  refine ⟨hread, ?_⟩
  unfold getByStream
  have hresolve : assocGet st2.streamIndex (streamKeyBytes req.sid req.ver) = some seq := by
    rw [h2idx]; exact assocGet_put_self _ _ _
  simp only [hresolve]
  exact hread

/-- Witness for C1 at a concrete encrypted append of a 1-byte event. -/
theorem append_read_roundtrip_witness :
    readerGet true (some masterW) checkAll stW1 1 = .ok (some [7]) ∧
    getByStream true (some masterW) checkAll stW1 1 1 = .ok (some [7]) := by
  have h := append_read_roundtrip true (some masterW) checkAll reqW emptyStore stW1 1
    (by decide) (by decide) (by decide) (by decide) (by decide) (by decide)
  exact h

/-- C2: when the stream index already holds `(stream_id, version)`, `append`
fails with `ConcurrencyConflict{stream_id, version}` and, the transaction
being rolled back, the committed store (all five namespaces) is unchanged. -/
theorem append_conflict_unchanged (enc : Bool) (mk : Option (List Nat)) (req : AppendReq)
    (st : Store) (q : Nat)
    (h : assocGet st.streamIndex (streamKeyBytes req.sid req.ver) = some q) :
    appendApply enc mk req st = (st, .error (.concurrencyConflict req.sid req.ver)) := by
  have hcore : appendCore enc mk req st = .error (.concurrencyConflict req.sid req.ver) := by
    unfold appendCore
    rw [if_pos (by rw [h]; rfl)]
  unfold appendApply
  rw [hcore]

/-- Witness for C2 at a concrete occupied stream-index slot. -/
theorem append_conflict_unchanged_witness :
    appendApply false none reqW stC2 = (stC2, .error (.concurrencyConflict 1 1)) := by
  have h := append_conflict_unchanged false none reqW stC2 1 (by decide)
  exact h

/-- One successful append advances the store shape from `n` to `n + 1` and is
assigned sequence `n + 1`. -/
theorem appendCore_step_shape {enc : Bool} {mk : Option (List Nat)} {req : AppendReq}
    {st st2 : Store} {seq n : Nat}
    (hs : StoreShape st n) (h : appendCore enc mk req st = .ok (st2, seq)) :
    StoreShape st2 (n + 1) ∧ seq = n + 1 := by
  obtain ⟨hlog, hidx, hnodup, hlen⟩ := hs
  obtain ⟨hconf, hseq, stR, env, hroute, stM, fb, hencd, hst2⟩ := appendCore_ok_inv h
  have hRlog : stR.eventsLog = st.eventsLog := by
    rcases hroute with ⟨-, rfl, -⟩ | ⟨-, rfl, -⟩ <;> rfl
  have hRidx : stR.streamIndex = st.streamIndex := by
    rcases hroute with ⟨-, rfl, -⟩ | ⟨-, rfl, -⟩ <;> rfl
  have hMlog : stM.eventsLog = st.eventsLog := by
    rcases hencd with ⟨-, key, hg, -⟩ | ⟨-, hMR, -⟩
    · rw [(getOrCreate_frame hg).1, hRlog]
    · rw [hMR, hRlog]
  have hMidx : stM.streamIndex = st.streamIndex := by
    rcases hencd with ⟨-, key, hg, -⟩ | ⟨-, hMR, -⟩
    · rw [(getOrCreate_frame hg).2.1, hRidx]
    · rw [hMR, hRidx]
  have hlast : lastSeq st.eventsLog = n := lastSeq_of_shape hlog
  have hseqn : seq = n + 1 := by rw [hseq, hlast]
  have hlogNone : assocGet st.eventsLog seq = none := by
    rw [assocGet_none_iff, hlog, hseqn]
    intro hmem
    rw [List.mem_range'_1] at hmem
    omega
  have hkb : streamKeyBytes req.sid req.ver ∉ st.streamIndex.map Prod.fst :=
    (assocGet_none_iff _ _).mp hconf
  have h2log : st2.eventsLog = st.eventsLog ++ [(seq, fb)] := by
    rw [hst2]
    show assocPut stM.eventsLog seq fb = _
    rw [hMlog, assocPut_of_none fb hlogNone]
  have h2idx : st2.streamIndex =
      st.streamIndex ++ [(streamKeyBytes req.sid req.ver, seq)] := by
    rw [hst2]
    show assocPut stM.streamIndex (streamKeyBytes req.sid req.ver) seq = _
    rw [hMidx, assocPut_of_none seq hconf]
  refine ⟨⟨?_, ?_, ?_, ?_⟩, hseqn⟩
  · rw [h2log, List.map_append, hlog, hseqn, List.range'_1_concat]
    simp [Nat.add_comm]
  · rw [h2idx, List.map_append, hidx, hseqn, List.range'_1_concat]
    simp [Nat.add_comm]
  · rw [h2idx, List.map_append, List.nodup_append]
    refine ⟨hnodup, List.nodup_singleton _, ?_⟩
    intro a ha hb
    simp at hb
    rw [hb] at ha
    exact hkb ha
  · rw [h2idx, List.length_append, hlen]
    rfl

/-- Iterated appends preserve the store shape, counting one per success. -/
theorem appendAll_shape (enc : Bool) (mk : Option (List Nat)) :
    ∀ (reqs : List AppendReq) (st : Store) (n : Nat), StoreShape st n →
      StoreShape (appendAll enc mk reqs st).1 (n + (appendAll enc mk reqs st).2) := by
  intro reqs
  induction reqs with
  | nil => intro st n hs; simpa [appendAll] using hs
  | cons r rs ih =>
    intro st n hs
    cases hc : appendCore enc mk r st with
    | ok p =>
      obtain ⟨st1, s⟩ := p
      obtain ⟨hs1, -⟩ := appendCore_step_shape hs hc
      have hrec := ih st1 (n + 1) hs1
      simp only [appendAll, hc]
      have harith : n + ((appendAll enc mk rs st1).2 + 1) =
          n + 1 + (appendAll enc mk rs st1).2 := by omega
      rw [harith]
      exact hrec
    | error e =>
      simp only [appendAll, hc]
      exact ih st n hs

/-- C3: starting from the empty store, after any sequence of appends of which
`N` succeed, the events-log keys are exactly `1, …, N` (each append is
assigned `last_key + 1`, starting at `1`), and the stream index holds exactly
`N` entries with pairwise distinct `(stream_id, version)` keys whose sequence
values are exactly `1, …, N`. -/
theorem appends_log_index_shape (enc : Bool) (mk : Option (List Nat))
    (reqs : List AppendReq) :
    (appendAll enc mk reqs emptyStore).1.eventsLog.map Prod.fst =
      List.range' 1 (appendAll enc mk reqs emptyStore).2 ∧
    (appendAll enc mk reqs emptyStore).1.streamIndex.map Prod.snd =
      List.range' 1 (appendAll enc mk reqs emptyStore).2 ∧
    ((appendAll enc mk reqs emptyStore).1.streamIndex.map Prod.fst).Nodup ∧
    (appendAll enc mk reqs emptyStore).1.streamIndex.length =
      (appendAll enc mk reqs emptyStore).2 := by
  have hempty : StoreShape emptyStore 0 := by
    refine ⟨?_, ?_, ?_, ?_⟩ <;> simp [emptyStore]
  have h := appendAll_shape enc mk reqs emptyStore 0 hempty
  rw [Nat.zero_add] at h
  exact h

/-- C4: every record stored by an encrypted append has the layout
`stream_id (16 bytes BE) ‖ nonce (12 bytes) ‖ ciphertext ‖ tag (16 entries)`,
where the ciphertext body is the envelope bytes under the stream key and the
AEAD associated data is `stream_id (16 bytes BE) ‖ global_seq (8 bytes BE)`. -/
theorem encrypted_record_layout (mk : Option (List Nat)) (req : AppendReq)
    (st st2 : Store) (seq : Nat)
    (happ : appendCore true mk req st = .ok (st2, seq))
    (hnonce : req.nonce.length = 12) :
    ∃ key env,
      assocGet st2.eventsLog seq =
        some (beBytes 16 req.sid ++ req.nonce ++ env ++
          aeadTag key req.nonce env (beBytes 16 req.sid ++ beBytes 8 seq)) ∧
      (beBytes 16 req.sid).length = 16 ∧
      req.nonce.length = 12 ∧
      (aeadTag key req.nonce env (beBytes 16 req.sid ++ beBytes 8 seq)).length = 16 := by
  obtain ⟨-, -, stR, env, -, stM, fb, hencd, hst2⟩ := appendCore_ok_inv happ
  rcases hencd with ⟨-, key, hg, hfb⟩ | ⟨hfalse, -, -⟩
  · refine ⟨key, env, ?_, beBytes_length 16 req.sid, hnonce, aeadTag_length _ _ _ _⟩
    have h2log : st2.eventsLog = assocPut stM.eventsLog seq fb := by rw [hst2]
    rw [h2log, assocGet_put_self, hfb]
    simp [cryptoEncrypt, aeadEncrypt]
  · simp at hfalse

/-- Witness for C4 at the concrete encrypted append of the fixtures. -/
theorem encrypted_record_layout_witness :
    ∃ key env,
      assocGet stW1.eventsLog 1 =
        some (beBytes 16 reqW.sid ++ reqW.nonce ++ env ++
          aeadTag key reqW.nonce env (beBytes 16 reqW.sid ++ beBytes 8 1)) ∧
      (beBytes 16 reqW.sid).length = 16 ∧
      reqW.nonce.length = 12 ∧
      (aeadTag key reqW.nonce env (beBytes 16 reqW.sid ++ beBytes 8 1)).length = 16 :=
  encrypted_record_layout (some masterW) reqW emptyStore stW1 1 (by decide) (by decide)

/-- C5 counterexample: with encryption configured but no master key,
`KeyManager::get_or_create_key_with_txn` fails with `Error::KeyNotFound(0)`;
the error taxonomy of `src/error.rs` (the `Error` type above) has no
`MasterKeyMissing` variant at all, so the claimed error cannot occur: the code
reuses the `KeyNotFound` kind — the kind the spec reserves for shredded
per-stream keys — with the sentinel stream id `0` standing for the master
key. -/
theorem master_key_missing_counterexample :
    getOrCreateKeyWithTxn none (List.replicate 32 0) (List.replicate 12 0) emptyStore 1 =
      .error (.keyNotFound 0) := by
  decide

/-- C5 (amended): when no master key is configured, `get_or_create_key_with_txn`
(and therefore every append that reaches the keying step) fails with
`Error::KeyNotFound(0)`, the sentinel the code uses for the missing master
key. -/
theorem master_key_missing_keynotfound (req : AppendReq) (st : Store)
    (hconf : assocGet st.streamIndex (streamKeyBytes req.sid req.ver) = none) :
    getOrCreateKeyWithTxn none req.freshKey req.keyNonce st req.sid =
      .error (.keyNotFound 0) ∧
    appendCore true none req st = .error (.keyNotFound 0) := by
  have hgc : ∀ st' : Store,
      getOrCreateKeyWithTxn none req.freshKey req.keyNonce st' req.sid =
        .error (.keyNotFound 0) := by
    intro st'
    unfold getOrCreateKeyWithTxn
    cases assocGet st'.keystore req.sid <;> rfl
  refine ⟨hgc st, ?_⟩
  unfold appendCore
  rw [if_neg (by rw [hconf]; simp)]
  simp only [eq_self_iff_true, if_true, hgc]

/-- Witness for the amended C5 at a concrete conflict-free request. -/
theorem master_key_missing_keynotfound_witness :
    getOrCreateKeyWithTxn none reqW.freshKey reqW.keyNonce emptyStore reqW.sid =
      .error (.keyNotFound 0) ∧
    appendCore true none reqW emptyStore = .error (.keyNotFound 0) := by
  have h := master_key_missing_keynotfound reqW emptyStore (by decide)
  exact h

/-- C6 counterexample: an encrypted-mode read of a 3-byte record fails with
`Error::InvalidEncryptedEventLength{actual: 3, minimum: 44}`, which is the
length-validation kind, not the structural-validation kind
(`Error::EventValidation`, the error realizing the spec's `CorruptRecord`). -/
theorem short_encrypted_record_counterexample :
    readerGet true (some masterW) checkAll stShort 1 =
      .error (.invalidEncryptedEventLength 3 44) ∧
    isValidationError (readerGet true (some masterW) checkAll stShort 1) = false := by
  decide

/-- C6 (amended): with encryption enabled, reading an events-log value shorter
than 44 bytes (`stream_id 16 + nonce 12 + tag 16`) fails with the total,
crash-free error `InvalidEncryptedEventLength{actual, minimum: 44}`. -/
theorem short_encrypted_record_length_error (mk : Option (List Nat))
    (checkE : List Nat → Bool) (st : Store) (seq : Nat) (bytes : List Nat)
    (hb : assocGet st.eventsLog seq = some bytes) (hlen : bytes.length < 44) :
    readerGet true mk checkE st seq =
      .error (.invalidEncryptedEventLength bytes.length 44) := by
  unfold readerGet
  simp only [hb, eq_self_iff_true, if_true, if_pos hlen]

/-- Witness for the amended C6 at the concrete 3-byte record. -/
theorem short_encrypted_record_length_error_witness :
    readerGet true (some masterW) checkAll stShort 1 =
      .error (.invalidEncryptedEventLength 3 44) := by
  have h := short_encrypted_record_length_error (some masterW) checkAll stShort 1
    [9, 9, 9] (by decide) (by decide)
  exact h

theorem aeadDecrypt_wrong_key {k k2 nonce pt aad : List Nat}
    (h1 : k.length = 32) (h2 : k2.length = 32)
    (b1 : ∀ x ∈ k, x < 256) (b2 : ∀ x ∈ k2, x < 256) (hne : k2 ≠ k) :
    aeadDecrypt k2 nonce (pt ++ aeadTag k nonce pt aad) aad = none := by
  have hlen : (pt ++ aeadTag k nonce pt aad).length = pt.length + 16 := by
    simp [aeadTag_length]
  have hm : pt.length + 16 - 16 = pt.length := by omega
  have htake : (pt ++ aeadTag k nonce pt aad).take
      ((pt ++ aeadTag k nonce pt aad).length - 16) = pt := by
    rw [hlen, hm]; exact List.take_left' rfl
  have hdrop : (pt ++ aeadTag k nonce pt aad).drop
      ((pt ++ aeadTag k nonce pt aad).length - 16) = aeadTag k nonce pt aad := by
    rw [hlen, hm]; exact List.drop_left' rfl
  unfold aeadDecrypt
  rw [if_neg]
  rintro ⟨-, heq⟩
  rw [hdrop, htake] at heq
  exact hne (aeadTag_key_inj h2 h1 b2 b1 heq.symm)

theorem cryptoDecrypt_wrong_key {k k2 nonce pt aad : List Nat}
    (hnonce : nonce.length = 12)
    (h1 : k.length = 32) (h2 : k2.length = 32)
    (b1 : ∀ x ∈ k, x < 256) (b2 : ∀ x ∈ k2, x < 256) (hne : k2 ≠ k) :
    cryptoDecrypt k2 (nonce ++ (pt ++ aeadTag k nonce pt aad)) aad =
      .error (.decryptionError "Decryption failed") := by
  have hlen : (nonce ++ (pt ++ aeadTag k nonce pt aad)).length =
      12 + (pt.length + 16) := by
    simp [aeadTag_length, hnonce]
  unfold cryptoDecrypt
  rw [if_neg (by omega), List.take_left' hnonce, List.drop_left' hnonce,
    aeadDecrypt_wrong_key h1 h2 b1 b2 hne]

/-- C7: crypto-shredding is irreversible. After `KeyManager::delete_key(s)`,
reading any encrypted record of stream `s` fails with `KeyNotFound(s)` even
though the master key is still configured; and after regenerating a fresh key
for `s` (which, being fresh 32-byte randomness, differs from the destroyed
key), the same read fails with `DecryptionFailed` — the old record stays
permanently unreadable. -/
theorem crypto_shred_irreversible (mk : Option (List Nat)) (checkE : List Nat → Bool)
    (st : Store) (s seq : Nat) (k nonce pt : List Nat)
    (hs : s < 2 ^ 128)
    (hrec : assocGet st.eventsLog seq =
      some (beBytes 16 s ++ nonce ++ pt ++
        aeadTag k nonce pt (beBytes 16 s ++ beBytes 8 seq)))
    (hnonce : nonce.length = 12) :
    readerGet true mk checkE (deleteKey st s) seq = .error (.keyNotFound s) ∧
    (∀ master k2 kn2 st2,
      mk = some master →
      getOrCreateKeyWithTxn mk k2 kn2 (deleteKey st s) s = .ok (k2, st2) →
      kn2.length = 12 → k2.length = 32 → (∀ x ∈ k2, x < 256) →
      k.length = 32 → (∀ x ∈ k, x < 256) → k2 ≠ k →
      readerGet true mk checkE st2 seq = .error (.decryptionError "Decryption failed")) := by
  have hslen : (beBytes 16 s ++ nonce ++ pt ++
      aeadTag k nonce pt (beBytes 16 s ++ beBytes 8 seq)).length =
      16 + (12 + (pt.length + 16)) := by
    simp [beBytes_length, hnonce, aeadTag_length]
  have h44 : ¬ (beBytes 16 s ++ nonce ++ pt ++
      aeadTag k nonce pt (beBytes 16 s ++ beBytes 8 seq)).length < 44 := by
    rw [hslen]; omega
  have htk : (beBytes 16 s ++ nonce ++ pt ++
      aeadTag k nonce pt (beBytes 16 s ++ beBytes 8 seq)).take 16 = beBytes 16 s :=
    List.take_left' (beBytes_length 16 s)
  have hdp : (beBytes 16 s ++ nonce ++ pt ++
      aeadTag k nonce pt (beBytes 16 s ++ beBytes 8 seq)).drop 16 =
      nonce ++ (pt ++ aeadTag k nonce pt (beBytes 16 s ++ beBytes 8 seq)) := by
    rw [List.append_assoc, List.append_assoc]
    exact List.drop_left' (beBytes_length 16 s)
  have hid : natFromBe (beBytes 16 s) = s := by
    rw [natFromBe_beBytes]
    exact Nat.mod_eq_of_lt (by
      have : (256 : Nat) ^ 16 = 2 ^ 128 := by norm_num
      omega)
  constructor
  · have hre : assocGet (deleteKey st s).eventsLog seq =
        some (beBytes 16 s ++ nonce ++ pt ++
          aeadTag k nonce pt (beBytes 16 s ++ beBytes 8 seq)) := hrec
    have hkey : getKeyWithTxn mk (deleteKey st s) s = .ok none := by
      unfold getKeyWithTxn
      have hdel : (deleteKey st s).keystore = assocDelete st.keystore s := rfl
      rw [hdel, assocGet_delete_self]
    unfold readerGet
    simp only [hre, eq_self_iff_true, if_true, if_neg h44, htk, hid, hkey]
  · intro master k2 kn2 st2 hmk hg hkn2 hk2len hk2b hklen hkb hne
    have hfr := getOrCreate_frame hg
    have h2log : st2.eventsLog = st.eventsLog := hfr.1
    have hre2 : assocGet st2.eventsLog seq =
        some (beBytes 16 s ++ nonce ++ pt ++
          aeadTag k nonce pt (beBytes 16 s ++ beBytes 8 seq)) := by
      rw [h2log]; exact hrec
    have hkey2 : getKeyWithTxn mk st2 s = .ok (some k2) :=
      getOrCreate_read hg hk2len hkn2
    unfold readerGet
    simp only [hre2, eq_self_iff_true, if_true, if_neg h44, htk, hid, hkey2, hdp,
      cryptoDecrypt_wrong_key hnonce hklen hk2len hkb hk2b hne]

/-- Witness for C7 at a concrete shredded stream. -/
theorem crypto_shred_irreversible_witness :
    readerGet true (some masterW) checkAll (deleteKey stC7 5) 1 =
      .error (.keyNotFound 5) ∧
    readerGet true (some masterW) checkAll st2C7 1 =
      .error (.decryptionError "Decryption failed") := by
  have h := crypto_shred_irreversible (some masterW) checkAll stC7 5 1 kW nonceW
    (encodePayload (.inline [7])) (by decide) (by decide) (by decide)
  exact ⟨h.1, h.2 masterW k2W knW st2C7 rfl (by decide) (by decide) (by decide)
    (by decide) (by decide) (by decide) (by decide)⟩

theorem mem_createDb_self (txn : List String) (name : String) :
    name ∈ createDb txn name := by
  unfold createDb
  split
  · assumption
  · simp

theorem mem_createDb_of_mem {txn : List String} {m : String} (name : String)
    (h : m ∈ txn) : m ∈ createDb txn name := by
  unfold createDb
  split
  · exact h
  · simp [h]

theorem mem_foldl_createDb_of_mem (names : List String) :
    ∀ txn m, m ∈ txn → m ∈ names.foldl createDb txn := by
  induction names with
  | nil => intro txn m h; exact h
  | cons a rest ih =>
    intro txn m h
    exact ih (createDb txn a) m (mem_createDb_of_mem a h)

theorem mem_foldl_createDb (names : List String) :
    ∀ txn n, n ∈ names → n ∈ names.foldl createDb txn := by
  induction names with
  | nil => intro txn n h; cases h
  | cons a rest ih =>
    intro txn n h
    rcases List.mem_cons.mp h with h1 | h2
    · subst h1
      exact mem_foldl_createDb_of_mem rest (createDb txn n) n (mem_createDb_self txn n)
    · exact ih (createDb txn a) n h2

theorem foldl_createDb_of_all_mem (names : List String) :
    ∀ txn, (∀ n ∈ names, n ∈ txn) → names.foldl createDb txn = txn := by
  induction names with
  | nil => intro txn _; rfl
  | cons a rest ih =>
    intro txn h
    have ha : a ∈ txn := h a (by simp)
    have hdb : createDb txn a = txn := by unfold createDb; rw [if_pos ha]
    rw [List.foldl_cons, hdb]
    exact ih txn (fun n hn => h n (by simp [hn]))

/-- C8: opening the storage environment creates or opens the five namespaces
`events_log`, `stream_index`, `consumer_cursors`, `keystore` and `blobs`
inside the single write transaction that `storageOpen` commits before
returning: a fresh environment ends up with exactly the five namespaces, an
existing environment retains its namespaces and holds all five, and reopening
changes nothing. -/
theorem storage_open_five_namespaces :
    storageOpen [] = varveNamespaces ∧
    (∀ pre, ∀ n ∈ varveNamespaces, n ∈ storageOpen pre) ∧
    (∀ pre, storageOpen (storageOpen pre) = storageOpen pre) := by
  refine ⟨by decide, ?_, ?_⟩
  · intro pre n hn
    exact mem_foldl_createDb varveNamespaces pre n hn
  · intro pre
    exact foldl_createDb_of_all_mem varveNamespaces (storageOpen pre)
      (fun n hn => mem_foldl_createDb varveNamespaces pre n hn)

/-- Witness for C8: the blobs namespace is present after opening an
environment that already held one of the namespaces. -/
theorem storage_open_five_namespaces_witness :
    "blobs" ∈ storageOpen ["events_log"] := by
  have h := storage_open_five_namespaces
  exact h.2.1 ["events_log"] "blobs" (by decide)

theorem innerBatch_spec (present : Nat → Bool) (b target : Nat) :
    ∀ d cur pending, d = target - cur → cur < target →
      (∀ s, cur < s → s ≤ target → present s = true) →
      cur < (innerBatch present b cur target pending).1 ∧
      (innerBatch present b cur target pending).1 ≤ target ∧
      (innerBatch present b cur target pending).2.2.2 =
        List.range' (cur + 1) ((innerBatch present b cur target pending).1 - cur) := by
  intro d
  induction d using Nat.strong_induction_on with
  | _ d ih =>
    intro cur pending hd hlt hall
    rw [innerBatch]
    rw [dif_pos hlt]
    rw [if_pos (hall (cur + 1) (by omega) (by omega))]
    by_cases hbatch : b ≤ pending + 1
    · rw [if_pos hbatch]
      refine ⟨by omega, by omega, ?_⟩
      have h1 : cur + 1 - cur = 1 := by omega
      simp [h1]
    · rw [if_neg hbatch]
      by_cases hlt2 : cur + 1 < target
      · have hrec := ih (target - (cur + 1)) (by omega) (cur + 1) (pending + 1) rfl hlt2
          (fun s h1 h2 => hall s (by omega) h2)
        obtain ⟨ha, hb2, hc⟩ := hrec
        refine ⟨by simp; omega, by simp; omega, ?_⟩
        simp only
        rw [hc]
        have hsplit : (innerBatch present b (cur + 1) target (pending + 1)).1 - cur =
            ((innerBatch present b (cur + 1) target (pending + 1)).1 - (cur + 1)) + 1 := by
          omega
        rw [hsplit, List.range'_succ]
      · have hstop : innerBatch present b (cur + 1) target (pending + 1) =
            (cur + 1, pending + 1, false, []) := by
          rw [innerBatch, dif_neg hlt2]
        refine ⟨?_, ?_, ?_⟩ <;> simp only [hstop]
        · omega
        · omega
        · have h1 : cur + 1 - cur = 1 := by omega
          simp [h1]

theorem outerDrain_spec (present : Nat → Bool) (b : Nat) (tmo : Nat → Bool) (target : Nat) :
    ∀ fuel cur pending, target - cur < fuel →
      (∀ s, cur < s → s ≤ target → present s = true) →
      outerDrain present b tmo fuel cur target pending =
        some (List.range' (cur + 1) (target - cur)) := by
  intro fuel
  induction fuel with
  | zero => intro cur pending hf hall; omega
  | succ fuel ih =>
    intro cur pending hf hall
    rw [outerDrain]
    by_cases hlt : cur < target
    · rw [if_pos hlt]
      obtain ⟨ha, hb2, hc⟩ :=
        innerBatch_spec present b target (target - cur) cur pending rfl hlt hall
      have hrec : ∀ p, outerDrain present b tmo fuel
          (innerBatch present b cur target pending).1 target p =
          some (List.range' ((innerBatch present b cur target pending).1 + 1)
            (target - (innerBatch present b cur target pending).1)) :=
        fun p => ih (innerBatch present b cur target pending).1 p (by omega)
          (fun s h1 h2 => hall s (by omega) h2)
      simp only [hrec, hc]
      congr 1
      have hstep : (innerBatch present b cur target pending).1 + 1 =
          cur + 1 + ((innerBatch present b cur target pending).1 - cur) := by omega
      rw [hstep, List.range'_append_1]
      congr 1
      omega
    · rw [if_neg hlt]
      rw [show target - cur = 0 from by omega]
      simp

theorem chain'_lt_range'_1 (s n : Nat) : List.Chain' (· < ·) (List.range' s n) := by
  cases n with
  | zero => simp
  | succ n =>
    rw [List.range'_succ]
    exact List.chain_lt_range' s n (by omega)

/-- C9: under crash-free execution (every sequence up to the observed head is
delivered by `Reader::get`), the processor backlog drain hands the handler
exactly the sequences `cursor + 1, …, head` in that order — a strictly
increasing, gap-free prefix of the global sequence starting just after the
loaded consumer cursor — for every batch size and batch-timeout behavior. -/
theorem processor_handler_in_order (enc : Bool) (mk : Option (List Nat))
    (checkE : List Nat → Bool) (st : Store) (consumerId head batchSize fuel : Nat)
    (tmo : Nat → Bool)
    (hall : ∀ s, loadCursor st consumerId < s → s ≤ head →
      deliverOk enc mk checkE st s = true)
    (hfuel : head - loadCursor st consumerId < fuel) :
    outerDrain (deliverOk enc mk checkE st) batchSize tmo fuel
        (loadCursor st consumerId) head 0 =
      some (List.range' (loadCursor st consumerId + 1)
        (head - loadCursor st consumerId)) ∧
    List.Chain' (· < ·)
      (List.range' (loadCursor st consumerId + 1) (head - loadCursor st consumerId)) :=
  ⟨outerDrain_spec (deliverOk enc mk checkE st) batchSize tmo head fuel
      (loadCursor st consumerId) 0 hfuel hall,
   chain'_lt_range'_1 _ _⟩

/-- Witness for C9: two plain events drained with batch size 1. -/
theorem processor_handler_in_order_witness :
    outerDrain (deliverOk false none checkAll stC9) 1 (fun _ => false) 3
        (loadCursor stC9 7) 2 0 = some [1, 2] ∧
    List.Chain' (· < ·) (List.range' (loadCursor stC9 7 + 1) (2 - loadCursor stC9 7)) := by
  have h := processor_handler_in_order false none checkAll stC9 7 2 1 3 (fun _ => false)
    (by
      intro s h1 h2
      have h0 : loadCursor stC9 7 = 0 := by decide
      rw [h0] at h1
      interval_cases s <;> decide)
    (by decide)
  exact h

/-- C10: the engine-level `Writer::append` performs no validation that the
version is nonzero: in plain mode, in any state whose stream index has no
entry for `(stream_id, 0)`, `append(stream_id, 0, event)` succeeds and
creates a stream-index entry with version field `0` — while the higher-level
`StreamVersion::new` rejects `0`. -/
theorem version_zero_unvalidated (req : AppendReq) (st : Store)
    (hver : req.ver = 0)
    (hconf : assocGet st.streamIndex (streamKeyBytes req.sid 0) = none) :
    (∃ st2 seq, appendCore false none req st = .ok (st2, seq) ∧
      assocGet st2.streamIndex (streamKeyBytes req.sid 0) = some seq) ∧
    streamVersionNew 0 = none := by
  refine ⟨?_, rfl⟩
  unfold appendCore
  rw [hver]
  rw [if_neg (by rw [hconf]; simp)]
  by_cases hroute : req.eventBytes.length > 2048
  · rw [if_pos hroute]
    exact ⟨_, _, rfl, assocGet_put_self _ _ _⟩
  · rw [if_neg hroute]
    exact ⟨_, _, rfl, assocGet_put_self _ _ _⟩

/-- Witness for C10 at a concrete version-0 append. -/
theorem version_zero_unvalidated_witness :
    (∃ st2 seq, appendCore false none reqV0 emptyStore = .ok (st2, seq) ∧
      assocGet st2.streamIndex (streamKeyBytes reqV0.sid 0) = some seq) ∧
    streamVersionNew 0 = none := by
  have h := version_zero_unvalidated reqV0 emptyStore (by decide) (by decide)
  exact h

end VarveDB
